import Mathlib

/-!
Verification development for `code_search.py`, a ripgrep front-end.

The file shallowly embeds the in-process logic of the program:
  * the result parser/grouper inside `RipgrepTreeViewer.perform_search`
    (lines 138-150 of the source),
  * the input-validation step of `perform_search` (lines 104-113),
  * the keyword highlight loop of `HighlightDelegate.paint` (lines 38-47),
  * the label splitting of `RipgrepTreeViewer.open_file_location`
    (lines 162-169).

Python strings are modelled as `List Char`; Python string methods used by
the program (`strip`, `split` with and without maxsplit, `in`, `int`,
`os.path.join` on POSIX) are each given a Lean definition translated from
their CPython semantics on the inputs the program feeds them.
-/

namespace CodeSearch

/-- The six ASCII whitespace characters stripped by Python `str.strip()`
(the program only ever strips ASCII process output). -/
def isPySpace (c : Char) : Bool :=
  c = ' ' || c = '\t' || c = '\n' || c = '\r' || c = '\x0b' || c = '\x0c'

/-- Python `s.strip()`: remove leading and trailing whitespace. -/
def pyStrip (l : List Char) : List Char :=
  ((l.dropWhile isPySpace).reverse.dropWhile isPySpace).reverse

/-- Python `s.split(sep, maxsplit)` for a single-character separator:
split on `sep` at most `m` times, left to right; the remainder after the
last permitted split is kept whole.  `acc` holds the part being built,
in reverse. -/
def splitChGo (sep : Char) : List Char → Nat → List Char → List (List Char)
  | [], _, acc => [acc.reverse]
  | c :: rest, 0, acc => [acc.reverse ++ (c :: rest)]
  | c :: rest, m + 1, acc =>
      if c = sep then acc.reverse :: splitChGo sep rest m []
      else splitChGo sep rest (m + 1) (c :: acc)

/-- Python `line.split(':', 2)` (source line 142). -/
def pySplit2 (line : List Char) : List (List Char) :=
  splitChGo ':' line 2 []

/-- Python `s.split(sep)` for a non-empty separator list: cut at every
left-to-right non-overlapping occurrence of `sep`.  The fuel argument is
the length of the remaining input, enough for every step. -/
def splitGo (sep : List Char) : Nat → List Char → List Char → List (List Char)
  | _, [], acc => [acc.reverse]
  | 0, cs, acc => [acc.reverse ++ cs]
  | fuel + 1, c :: rest, acc =>
      if sep.isPrefixOf (c :: rest) then
        acc.reverse :: splitGo sep fuel (rest.drop (sep.length - 1)) []
      else
        splitGo sep fuel rest (c :: acc)

/-- Python `s.split(sep)` with no maxsplit, `sep` non-empty. -/
def pySplitSep (sep l : List Char) : List (List Char) :=
  splitGo sep l.length l []

/-- Python `needle in haystack`: substring containment. -/
def containsSub (needle : List Char) : List Char → Bool
  | [] => needle.isPrefixOf []
  | c :: rest => needle.isPrefixOf (c :: rest) || containsSub needle rest

/-- Body of a Python integer literal after the optional sign: one or more
ASCII digits, with single underscores permitted between digits. -/
def digitsBody : List Char → Bool
  | [] => false
  | [c] => c.isDigit
  | c :: '_' :: rest => c.isDigit && digitsBody rest
  | c :: rest => c.isDigit && digitsBody rest

/-- Numeric value of a digit body (underscores are ignored). -/
def natVal (l : List Char) : Nat :=
  (l.filter (fun c => ¬ c = '_')).foldl (fun a c => 10 * a + (c.toNat - '0'.toNat)) 0

/-- Python `int(s)` on a decimal string: strip whitespace, optional sign,
then a digit body; any other shape raises `ValueError`, modelled as
`none`.  (Source line 149 calls `int(lineno)`.) -/
def pyInt? (s : List Char) : Option Int :=
  match pyStrip s with
  | '+' :: rest => if digitsBody rest then some (natVal rest : Int) else none
  | '-' :: rest => if digitsBody rest then some (-(natVal rest : Int)) else none
  | t => if digitsBody t then some (natVal t : Int) else none

/-- Whether a path begins with the POSIX separator. -/
def startsWithSlash : List Char → Bool
  | '/' :: _ => true
  | _ => false

/-- Whether a path ends with the POSIX separator. -/
def endsWithSlash (l : List Char) : Bool :=
  match l.getLast? with
  | some '/' => true
  | _ => false

/-- CPython `posixpath.join(root, b)` for two arguments: an absolute `b`
wins; otherwise `b` is appended to `root`, inserting `/` unless `root` is
empty or already ends with `/`.  (Source line 146.) -/
def posixJoin (root b : List Char) : List Char :=
  if startsWithSlash b then b
  else if root = [] ∨ endsWithSlash root = true then root ++ b
  else root ++ '/' :: b

/-- The grouped search result: an insertion-ordered association list from
full file path to the list of (line number, text) matches, modelling the
Python dict `files` of source lines 138-150. -/
abbrev Files := List (List Char × List (Int × List Char))

/-- One `files[fullpath].append((lineno, text))`, creating the entry at the
end on first encounter (dict insertion order), appending otherwise
(source lines 147-149). -/
def addMatch (files : Files) (fp : List Char) (e : Int × List Char) : Files :=
  match files with
  | [] => [(fp, [e])]
  | (k, v) :: rest =>
      if k = fp then (k, v ++ [e]) :: rest
      else (k, v) :: addMatch rest fp e

/-- The per-line body of the parsing loop (source lines 140-149): skip
lines without a colon, split on the first two colons, skip if fewer than
3 parts, parse the line number (a failure crashes the whole loop, hence
`Option`), join the path against the root and record the trimmed text. -/
def processLine (root : List Char) (files : Files) (line : List Char) : Option Files :=
  if ':' ∈ line then
    match pySplit2 line with
    | [filepath, lineno, code] =>
        (pyInt? lineno).map (fun n => addMatch files (posixJoin root filepath) (n, pyStrip code))
    | _ => some files
  else some files

/-- Step 1 of the parser (source line 139): `results.strip().split('\n')`. -/
def linesOf (raw : List Char) : List (List Char) :=
  pySplitSep ['\n'] (pyStrip raw)

/-- The parsing loop over the line list, threading the dict; `none` models
an uncaught `ValueError` aborting the loop. -/
def parseLines (root : List Char) : List (List Char) → Files → Option Files
  | [], files => some files
  | line :: rest, files =>
      match processLine root files line with
      | none => none
      | some files2 => parseLines root rest files2

/-- The whole result parser/grouper of `perform_search`
(source lines 138-150) as a function of (raw output, root path). -/
def parseRG (raw root : List Char) : Option Files :=
  parseLines root (linesOf raw) []

/-- Dict lookup in the grouped result (first matching key). -/
def linesFor (fp : List Char) : Files → List (Int × List Char)
  | [] => []
  | (k, v) :: rest => if k = fp then v else linesFor fp rest

/-- The draw calls issued by the loop of `HighlightDelegate.paint`
(source lines 38-47) on the parts of `text.split(keyword)`: each part is
drawn in the text color, and between consecutive parts the keyword is
drawn in red.  `true` marks a keyword segment. -/
def interleaveKw (kw : List Char) : List (List Char) → List (List Char × Bool)
  | [] => []
  | [s] => [(s, false)]
  | s :: rest => (s, false) :: (kw, true) :: interleaveKw kw rest

/-- `HighlightDelegate.paint` (source lines 16-49) as the list of drawn
segments: with an empty keyword or no occurrence the default delegate
draws the whole text unhighlighted; otherwise the split-and-interleave
loop runs. -/
def paintSegs (text kw : List Char) : List (List Char × Bool) :=
  if kw = [] ∨ containsSub kw text = false then [(text, false)]
  else interleaveKw kw (pySplitSep kw text)

/-- The visible segments of `paint`: `drawText` with an empty string draws
nothing and advances the pen by zero width, so the observable output is
the sequence of non-empty draw calls. -/
def visibleSegs (text kw : List Char) : List (List Char × Bool) :=
  (paintSegs text kw).filter (fun p => !p.1.isEmpty)

/-- Concatenation of parts separated by `sep`. -/
def joinSep (sep : List Char) : List (List Char) → List Char
  | [] => []
  | [p] => p
  | p :: ps => p ++ sep ++ joinSep sep ps

/-- Follows the spec words for step 1 of the parser, for comparison with
`linesOf`: "Split the raw output on line breaks; discard a trailing empty
line produced by a final newline." -/
def specStep1Lines (raw : List Char) : List (List Char) :=
  let parts := pySplitSep ['\n'] raw
  if parts.getLast? = some [] then parts.dropLast else parts

/-- Outcome of the input-validation step of `perform_search` (source lines
104-113): either the operation aborts with the missing-input diagnostic
before the search runner is invoked, or the runner is invoked with the
trimmed keyword and root. -/
inductive SearchAction where
  | abortMissingInput : SearchAction
  | runSearch (keyword root : List Char) : SearchAction
deriving DecidableEq

/-- The decision `perform_search` makes from the two text fields (source
lines 106-111): trim both, abort when either is empty. -/
def searchDecision (query path : List Char) : SearchAction :=
  let keyword := pyStrip query
  let root := pyStrip path
  if keyword = [] ∨ root = [] then SearchAction.abortMissingInput
  else SearchAction.runSearch keyword root

/-- The editor invocation built by `open_file_location` (source lines
162-169): `code -g "filepath":lineno` or `code "text"`. -/
inductive OpenCmd where
  | withLine (filepath lineno : List Char) : OpenCmd
  | whole (path : List Char) : OpenCmd
deriving DecidableEq

/-- `RipgrepTreeViewer.open_file_location` on the item's first-column
label: with a colon present, `text.split(':', 1)` is unpacked into
(filepath, lineno); `none` models the (unreachable) unpacking failure. -/
def open_file_location (text : List Char) : Option OpenCmd :=
  if ':' ∈ text then
    match splitChGo ':' text 1 [] with
    | [filepath, lineno] => some (OpenCmd.withLine filepath lineno)
    | _ => none
  else some (OpenCmd.whole text)

/-! ### Library lemmas about the embedded Python string operations -/

lemma isPrefixOf_iff : ∀ p l : List Char, p.isPrefixOf l = true ↔ ∃ t, l = p ++ t := by
  intro p
  induction p with
  | nil => intro l; simp [List.isPrefixOf]
  | cons a as ih =>
    intro l
    cases l with
    | nil =>
      simp only [List.isPrefixOf]
      constructor
      · intro h; cases h
      · rintro ⟨t, ht⟩; cases ht
    | cons b bs =>
      simp only [List.isPrefixOf, Bool.and_eq_true, beq_iff_eq, ih bs]
      constructor
      · rintro ⟨rfl, t, rfl⟩; exact ⟨t, rfl⟩
      · rintro ⟨t, ht⟩
        injection ht with h1 h2
        exact ⟨h1.symm, t, h2⟩

lemma isPrefixOf_append_self (p t : List Char) : p.isPrefixOf (p ++ t) = true :=
  (isPrefixOf_iff p (p ++ t)).mpr ⟨t, rfl⟩

lemma containsSub_iff (kw : List Char) :
    ∀ l : List Char, containsSub kw l = true ↔ ∃ u w, l = u ++ (kw ++ w) := by
  intro l
  induction l with
  | nil =>
    simp only [containsSub, isPrefixOf_iff]
    constructor
    · rintro ⟨t, ht⟩; exact ⟨[], t, ht⟩
    · rintro ⟨u, w, huw⟩
      rcases List.append_eq_nil.mp huw.symm with ⟨rfl, h2⟩
      exact ⟨w, h2.symm⟩
  | cons c rest ih =>
    simp only [containsSub, Bool.or_eq_true, isPrefixOf_iff, ih]
    constructor
    · rintro (⟨t, ht⟩ | ⟨u, w, huw⟩)
      · exact ⟨[], t, ht⟩
      · exact ⟨c :: u, w, by simp [huw]⟩
    · rintro ⟨u, w, huw⟩
      cases u with
      | nil => exact Or.inl ⟨w, by simpa using huw⟩
      | cons x u2 =>
        injection huw with h1 h2
        exact Or.inr ⟨u2, w, h2⟩

lemma splitChGo_zero (sep : Char) :
    ∀ l acc, splitChGo sep l 0 acc = [acc.reverse ++ l] := by
  intro l acc
  cases l with
  | nil => simp [splitChGo]
  | cons c rest => simp [splitChGo]

lemma splitChGo_before (sep : Char) :
    ∀ (p : List Char) (rest : List Char) (m : Nat) (acc : List Char), sep ∉ p →
      splitChGo sep (p ++ sep :: rest) (m + 1) acc
        = (acc.reverse ++ p) :: splitChGo sep rest m [] := by
  intro p
  induction p with
  | nil => intro rest m acc _; simp [splitChGo]
  | cons c p2 ih =>
    intro rest m acc hp
    have hc : ¬ c = sep := fun h => hp (h ▸ List.mem_cons_self c p2)
    simp only [List.cons_append, splitChGo, if_neg hc, List.append_eq]
    rw [ih rest m (c :: acc) (fun h => hp (List.mem_cons_of_mem c h))]
    simp

lemma pySplit2_eq (fp ln code : List Char) (hfp : ':' ∉ fp) (hln : ':' ∉ ln) :
    pySplit2 (fp ++ ':' :: (ln ++ ':' :: code)) = [fp, ln, code] := by
  unfold pySplit2
  rw [splitChGo_before ':' fp _ 1 [] hfp, splitChGo_before ':' ln _ 0 [] hln,
    splitChGo_zero]
  simp

lemma splitCh1_eq (p r : List Char) (hp : ':' ∉ p) :
    splitChGo ':' (p ++ ':' :: r) 1 [] = [p, r] := by
  rw [splitChGo_before ':' p _ 0 [] hp, splitChGo_zero]
  simp

lemma mem_split_first {c : Char} : ∀ {l : List Char}, c ∈ l →
    ∃ p r, l = p ++ c :: r ∧ c ∉ p := by
  intro l
  induction l with
  | nil => intro h; cases h
  | cons a rest ih =>
    intro h
    by_cases hac : a = c
    · exact ⟨[], rest, by simp [hac], by simp⟩
    · have hc : c ∈ rest := by
        rcases List.mem_cons.mp h with h1 | h1
        · exact absurd h1.symm hac
        · exact h1
      obtain ⟨p, r, hpr, hnp⟩ := ih hc
      exact ⟨a :: p, r, by simp [hpr], by
        intro hmem
        rcases List.mem_cons.mp hmem with h1 | h1
        · exact hac h1.symm
        · exact hnp h1⟩

lemma processLine_eq (root : List Char) (files : Files) (fp ln code : List Char)
    (n : Int) (hfp : ':' ∉ fp) (hln : ':' ∉ ln) (hn : pyInt? ln = some n) :
    processLine root files (fp ++ ':' :: (ln ++ ':' :: code))
      = some (addMatch files (posixJoin root fp) (n, pyStrip code)) := by
  have hmem : ':' ∈ fp ++ ':' :: (ln ++ ':' :: code) :=
    List.mem_append_right _ (List.mem_cons_self _ _)
  unfold processLine
  rw [if_pos hmem, pySplit2_eq fp ln code hfp hln]
  simp [hn]

lemma addMatch_keys (fp : List Char) (e : Int × List Char) :
    ∀ files : Files, (addMatch files fp e).map Prod.fst
      = if fp ∈ files.map Prod.fst then files.map Prod.fst
        else files.map Prod.fst ++ [fp] := by
  intro files
  induction files with
  | nil => simp [addMatch]
  | cons kv rest ih =>
    obtain ⟨k, v⟩ := kv
    by_cases hk : k = fp
    · subst hk
      simp [addMatch]
    · have hk2 : fp ≠ k := fun h => hk h.symm
      simp only [addMatch, if_neg hk, List.map_cons, ih, List.mem_cons]
      by_cases hmem : fp ∈ rest.map Prod.fst
      · simp [hmem, hk2]
      · simp [hmem, hk2]

lemma linesFor_addMatch_self (fp : List Char) (e : Int × List Char) :
    ∀ files : Files, linesFor fp (addMatch files fp e) = linesFor fp files ++ [e] := by
  intro files
  induction files with
  | nil => simp [addMatch, linesFor]
  | cons kv rest ih =>
    obtain ⟨k, v⟩ := kv
    by_cases hk : k = fp
    · subst hk; simp [addMatch, linesFor]
    · simp [addMatch, linesFor, hk, ih]

lemma linesFor_addMatch_other (fp k : List Char) (e : Int × List Char) (hk : k ≠ fp) :
    ∀ files : Files, linesFor k (addMatch files fp e) = linesFor k files := by
  intro files
  induction files with
  | nil =>
    have hne : ¬ fp = k := fun h => hk h.symm
    simp [addMatch, linesFor, hne]
  | cons kv rest ih =>
    obtain ⟨k2, v⟩ := kv
    by_cases hk2 : k2 = fp
    · have hne : ¬ k2 = k := fun h => hk (h ▸ hk2)
      have hne2 : ¬ fp = k := fun h => hk h.symm
      simp [addMatch, linesFor, hk2, hne, hne2]
    · by_cases hk3 : k2 = k
      · simp [addMatch, linesFor, hk2, hk3, hk]
      · simp [addMatch, linesFor, hk2, hk3, ih]

lemma posixJoin_inj (root b1 b2 : List Char)
    (h1 : startsWithSlash b1 = false) (h2 : startsWithSlash b2 = false) :
    posixJoin root b1 = posixJoin root b2 ↔ b1 = b2 := by
  have hb1 : ¬ (startsWithSlash b1 = true) := by simp [h1]
  have hb2 : ¬ (startsWithSlash b2 = true) := by simp [h2]
  unfold posixJoin
  rw [if_neg hb1, if_neg hb2]
  by_cases hr : root = [] ∨ endsWithSlash root = true
  · rw [if_pos hr, if_pos hr]
    exact ⟨fun h => List.append_cancel_left h, fun h => h ▸ rfl⟩
  · rw [if_neg hr, if_neg hr]
    constructor
    · intro h
      have h2 := List.append_cancel_left h
      injection h2
    · intro h; rw [h]

lemma joinSep_cons_nil (x : List Char) (xs : List (List Char)) :
    joinSep [] (x :: xs) = x ++ joinSep [] xs := by
  cases xs with
  | nil => simp [joinSep]
  | cons y ys => simp [joinSep]

lemma joinSep_cons_of_ne (sep p : List Char) (ps : List (List Char)) (h : ps ≠ []) :
    joinSep sep (p :: ps) = p ++ sep ++ joinSep sep ps := by
  cases ps with
  | nil => exact absurd rfl h
  | cons q qs => simp [joinSep]

lemma splitGo_ne_nil (sep : List Char) :
    ∀ (fuel : Nat) (l acc : List Char), splitGo sep fuel l acc ≠ [] := by
  intro fuel
  induction fuel with
  | zero =>
    intro l acc
    cases l with
    | nil => simp [splitGo]
    | cons c rest => simp [splitGo]
  | succ fuel ih =>
    intro l acc
    cases l with
    | nil => simp [splitGo]
    | cons c rest =>
      by_cases hpre : sep.isPrefixOf (c :: rest) = true
      · simp [splitGo, hpre]
      · simp only [splitGo, if_neg hpre]
        exact ih rest (c :: acc)

lemma splitGo_join (sep : List Char) (hsep : sep ≠ []) :
    ∀ (fuel : Nat) (l acc : List Char), l.length ≤ fuel →
      joinSep sep (splitGo sep fuel l acc) = acc.reverse ++ l := by
  intro fuel
  induction fuel with
  | zero =>
    intro l acc hl
    have hnil : l = [] := List.length_eq_zero.mp (Nat.le_zero.mp hl)
    subst hnil
    simp [splitGo, joinSep]
  | succ fuel ih =>
    intro l acc hl
    cases l with
    | nil => simp [splitGo, joinSep]
    | cons c rest =>
      by_cases hpre : sep.isPrefixOf (c :: rest) = true
      · obtain ⟨t, ht⟩ := (isPrefixOf_iff sep (c :: rest)).mp hpre
        obtain ⟨s0, s2, hs⟩ : ∃ s0 s2, sep = s0 :: s2 := by
          cases sep with
          | nil => exact absurd rfl hsep
          | cons a b => exact ⟨a, b, rfl⟩
        have hrest : rest = s2 ++ t := by
          rw [hs] at ht
          injection ht with _ h2
        have hdrop : rest.drop (sep.length - 1) = t := by
          rw [hrest, hs]
          simp [List.drop_left]
        have htlen : t.length ≤ fuel := by
          have h1 : rest.length ≤ fuel := Nat.le_of_succ_le_succ (by simpa using hl)
          have h2 : t.length ≤ rest.length := by
            rw [hrest]; simp
          exact Nat.le_trans h2 h1
        simp only [splitGo, if_pos hpre, hdrop]
        rw [joinSep_cons_of_ne sep acc.reverse _ (splitGo_ne_nil sep fuel t []),
          ih t [] htlen]
        simp [ht, List.append_assoc]
      · simp only [splitGo, if_neg hpre]
        rw [ih rest (c :: acc) (Nat.le_of_succ_le_succ (by simpa using hl))]
        simp

lemma append_singleton_eq {x : Char} {xs u v : List Char}
    (h : xs ++ [x] = u ++ v) (hv : v ≠ []) :
    ∃ v0, v = v0 ++ [x] ∧ xs = u ++ v0 := by
  have hlast : v.dropLast ++ [v.getLast hv] = v := List.dropLast_append_getLast hv
  have h2 : xs ++ [x] = (u ++ v.dropLast) ++ [v.getLast hv] := by
    rw [List.append_assoc, hlast, h]
  obtain ⟨hx, hl⟩ := List.append_inj' h2 rfl
  refine ⟨v.dropLast, ?_, hx⟩
  injection hl with hxl
  rw [hxl]
  exact hlast.symm

lemma splitGo_no_occ (sep : List Char) (hsep : sep ≠ []) :
    ∀ (fuel : Nat) (l acc : List Char), l.length ≤ fuel →
      (∀ u v, acc.reverse = u ++ v → v ≠ [] → sep.isPrefixOf (v ++ l) = false) →
      ∀ part ∈ splitGo sep fuel l acc, ∀ u w, part ≠ u ++ (sep ++ w) := by
  intro fuel
  induction fuel with
  | zero =>
    intro l acc hl hinv part hpart u w heq
    have hnil : l = [] := List.length_eq_zero.mp (Nat.le_zero.mp hl)
    subst hnil
    simp only [splitGo, List.mem_singleton] at hpart
    subst hpart
    have := hinv u (sep ++ w) heq (by simp [hsep])
    simp [List.append_assoc, isPrefixOf_append_self] at this
  | succ fuel ih =>
    intro l acc hl hinv part hpart u w heq
    cases l with
    | nil =>
      simp only [splitGo, List.mem_singleton] at hpart
      subst hpart
      have := hinv u (sep ++ w) heq (by simp [hsep])
      simp [List.append_assoc, isPrefixOf_append_self] at this
    | cons c rest =>
      by_cases hpre : sep.isPrefixOf (c :: rest) = true
      · simp only [splitGo, if_pos hpre, List.mem_cons] at hpart
        rcases hpart with hpart | hpart
        · subst hpart
          have := hinv u (sep ++ w) heq (by simp [hsep])
          simp [List.append_assoc, isPrefixOf_append_self] at this
        · have htlen : (rest.drop (sep.length - 1)).length ≤ fuel := by
            have h1 : rest.length ≤ fuel := Nat.le_of_succ_le_succ (by simpa using hl)
            exact Nat.le_trans (by simp) h1
          have hinv2 : ∀ u v, ([] : List Char).reverse = u ++ v → v ≠ [] →
              sep.isPrefixOf (v ++ rest.drop (sep.length - 1)) = false := by
            intro u v huv hv
            exact absurd (List.append_eq_nil.mp huv.symm).2 hv
          exact ih _ [] htlen hinv2 part hpart u w heq
      · simp only [splitGo, if_neg hpre] at hpart
        have hinv2 : ∀ u v, (c :: acc).reverse = u ++ v → v ≠ [] →
            sep.isPrefixOf (v ++ rest) = false := by
          intro u v huv hv
          rw [List.reverse_cons] at huv
          obtain ⟨v0, hv0, hacc⟩ := append_singleton_eq huv hv
          cases hv0eq : v0 with
          | nil =>
            rw [hv0, hv0eq, List.nil_append, List.singleton_append]
            exact Bool.eq_false_iff.mpr hpre
          | cons x v1 =>
            rw [hv0, List.append_assoc, List.singleton_append]
            exact hinv u v0 hacc (by simp [hv0eq])
        exact ih rest (c :: acc) (Nat.le_of_succ_le_succ (by simpa using hl)) hinv2
          part hpart u w heq

lemma interleaveKw_join (kw : List Char) :
    ∀ parts : List (List Char),
      joinSep [] ((interleaveKw kw parts).map Prod.fst) = joinSep kw parts := by
  intro parts
  induction parts with
  | nil => simp [interleaveKw, joinSep]
  | cons p rest ih =>
    cases rest with
    | nil => simp [interleaveKw, joinSep]
    | cons q ps =>
      simp only [interleaveKw, List.map_cons]
      rw [joinSep_cons_nil, joinSep_cons_nil, ih,
        joinSep_cons_of_ne kw p (q :: ps) (by simp)]
      simp [List.append_assoc]

lemma interleaveKw_true (kw : List Char) :
    ∀ (parts : List (List Char)) (p : List Char × Bool),
      p ∈ interleaveKw kw parts → p.2 = true → p.1 = kw := by
  intro parts
  induction parts with
  | nil => intro p hp; cases hp
  | cons s rest ih =>
    cases rest with
    | nil =>
      intro p hp ht
      simp only [interleaveKw, List.mem_singleton] at hp
      subst hp
      cases ht
    | cons q ps =>
      intro p hp ht
      simp only [interleaveKw, List.mem_cons] at hp
      rcases hp with rfl | rfl | hp
      · cases ht
      · rfl
      · exact ih p hp ht

lemma interleaveKw_false (kw : List Char) :
    ∀ (parts : List (List Char)) (p : List Char × Bool),
      p ∈ interleaveKw kw parts → p.2 = false → p.1 ∈ parts := by
  intro parts
  induction parts with
  | nil => intro p hp; cases hp
  | cons s rest ih =>
    cases rest with
    | nil =>
      intro p hp _
      simp only [interleaveKw, List.mem_singleton] at hp
      subst hp
      simp
    | cons q ps =>
      intro p hp hf
      simp only [interleaveKw, List.mem_cons] at hp
      rcases hp with rfl | rfl | hp
      · simp
      · cases hf
      · exact List.mem_cons_of_mem s (ih p hp hf)

lemma joinSep_filter (xs : List (List Char × Bool)) :
    joinSep [] (((xs.filter (fun p => !p.1.isEmpty)).map Prod.fst))
      = joinSep [] (xs.map Prod.fst) := by
  induction xs with
  | nil => rfl
  | cons p rest ih =>
    obtain ⟨s, bb⟩ := p
    rw [List.filter_cons]
    cases s with
    | nil =>
      rw [if_neg (by simp)]
      rw [ih, List.map_cons, joinSep_cons_nil, List.nil_append]
    | cons c cs =>
      rw [if_pos (by simp)]
      rw [List.map_cons, List.map_cons, joinSep_cons_nil, joinSep_cons_nil, ih]

lemma dropWhile_append_ite (p : Char → Bool) :
    ∀ l1 l2 : List Char, List.dropWhile p (l1 ++ l2)
      = if (List.dropWhile p l1).isEmpty then List.dropWhile p l2
        else List.dropWhile p l1 ++ l2 := by
  intro l1
  induction l1 with
  | nil => intro l2; simp [List.dropWhile]
  | cons a l1 ih =>
    intro l2
    by_cases ha : p a = true
    · simp [List.dropWhile_cons, ha, ih l2]
    · simp [List.dropWhile_cons, ha]

lemma pyStrip_cons_space (c : Char) (l : List Char) (hc : isPySpace c = true) :
    pyStrip (c :: l) = pyStrip l := by
  unfold pyStrip
  rw [List.dropWhile_cons, if_pos hc]

lemma pyStrip_append_space (l : List Char) (c : Char) (hc : isPySpace c = true) :
    pyStrip (l ++ [c]) = pyStrip l := by
  unfold pyStrip
  rw [dropWhile_append_ite]
  by_cases hd : (List.dropWhile isPySpace l).isEmpty
  · rw [if_pos hd]
    have hnil : List.dropWhile isPySpace l = [] := by
      cases h : List.dropWhile isPySpace l with
      | nil => rfl
      | cons x xs => rw [h] at hd; simp [List.isEmpty] at hd
    rw [hnil]
    simp [List.dropWhile, hc]
  · rw [if_neg hd]
    rw [List.reverse_append]
    simp only [List.reverse_singleton, List.singleton_append, List.dropWhile_cons,
      if_pos hc]

lemma linesOf_append_newline (raw : List Char) :
    linesOf (raw ++ ['\n']) = linesOf raw := by
  unfold linesOf
  rw [pyStrip_append_space raw '\n' (by decide)]

lemma linesOf_cons_space (c : Char) (raw : List Char) (hc : isPySpace c = true) :
    linesOf (c :: raw) = linesOf raw := by
  unfold linesOf
  rw [pyStrip_cons_space c raw hc]

lemma processLine_isSome (root : List Char) (files : Files) (line : List Char)
    (h : ∀ fp ln code, pySplit2 line = [fp, ln, code] → (pyInt? ln).isSome = true) :
    (processLine root files line).isSome = true := by
  unfold processLine
  by_cases hmem : ':' ∈ line
  · rw [if_pos hmem]
    cases hsp : pySplit2 line with
    | nil => simp
    | cons a rest =>
      cases rest with
      | nil => simp
      | cons b rest2 =>
        cases rest2 with
        | nil => simp
        | cons d rest3 =>
          cases rest3 with
          | nil =>
            have hint := h a b d hsp
            cases hpy : pyInt? b with
            | none => rw [hpy] at hint; cases hint
            | some n => simp [hpy]
          | cons e rest4 => simp
  · rw [if_neg hmem]
    simp

lemma parseLines_isSome (root : List Char) :
    ∀ (lines : List (List Char)) (files : Files),
      (∀ line ∈ lines, ∀ fp ln code, pySplit2 line = [fp, ln, code] →
        (pyInt? ln).isSome = true) →
      (parseLines root lines files).isSome = true := by
  intro lines
  induction lines with
  | nil => intro files _; simp [parseLines]
  | cons line rest ih =>
    intro files h
    have h1 := processLine_isSome root files line
      (h line (List.mem_cons_self _ _))
    obtain ⟨files2, h2⟩ := Option.isSome_iff_exists.mp h1
    simp only [parseLines, h2]
    exact ih files2 (fun l hl => h l (List.mem_cons_of_mem _ hl))

lemma parseLines_cons_some (root : List Char) (line : List Char)
    (rest : List (List Char)) (files files2 : Files)
    (h : processLine root files line = some files2) :
    parseLines root (line :: rest) files = parseLines root rest files2 := by
  simp [parseLines, h]

/-! ### Claim theorems -/

/-- Claim C2, code defect: the claim mandates that a raw-output line whose
line-number field does not parse as an integer is skipped, with the
remaining lines still producing a SearchResult.  The code instead calls
`int(lineno)` unguarded, so such a line raises `ValueError` and the whole
parse crashes (modelled as `none`): on the raw output
`"b.c:1:ok\na.c:xx:foo"` the well-formed first line is lost too. -/
theorem parse_crashes_on_bad_lineno :
    parseRG "b.c:1:ok\na.c:xx:foo".toList "/sdk".toList = none := by decide

/-- Claim C4: an empty raw output yields an empty SearchResult, and any
line with no colon, or splitting into fewer than 3 colon-delimited parts,
leaves the accumulated result untouched and raises no error. -/
theorem malformed_lines_dropped :
    (∀ root : List Char, parseRG [] root = some [])
    ∧ ∀ (root : List Char) (files : Files) (line : List Char),
        (¬ ':' ∈ line) ∨ (pySplit2 line).length < 3 →
        processLine root files line = some files := by
  constructor
  · intro root
    rfl
  · intro root files line h
    unfold processLine
    by_cases hmem : ':' ∈ line
    · rw [if_pos hmem]
      rcases h with h | h
      · exact absurd hmem h
      · cases hsp : pySplit2 line with
        | nil => rfl
        | cons a rest =>
          cases rest with
          | nil => rfl
          | cons b rest2 =>
            cases rest2 with
            | nil => rfl
            | cons d rest3 =>
              cases rest3 with
              | nil =>
                rw [hsp] at h
                simp at h
              | cons f rest4 => rfl
    · rw [if_neg hmem]

/-- Claim C4 witness: the two malformed shapes at concrete inputs, plus the
empty raw output. -/
theorem malformed_lines_dropped_witness :
    (¬ ':' ∈ "noColonHere".toList)
    ∧ (pySplit2 "only:onecolon".toList).length < 3
    ∧ parseRG [] "/sdk".toList = some []
    ∧ processLine "/sdk".toList [] "noColonHere".toList = some []
    ∧ processLine "/sdk".toList [] "only:onecolon".toList = some [] :=
  ⟨by decide, by decide,
   malformed_lines_dropped.1 _,
   malformed_lines_dropped.2 _ _ _ (Or.inl (by decide)),
   malformed_lines_dropped.2 _ _ _ (Or.inr (by decide))⟩

/-- Claim C9: when the keyword or the root path is empty after trimming,
`perform_search` takes the abort action (a printed diagnostic and an early
return) before the search runner would be invoked, so no SearchResult is
produced. -/
theorem empty_input_aborts :
    ∀ query path : List Char, pyStrip query = [] ∨ pyStrip path = [] →
      searchDecision query path = SearchAction.abortMissingInput := by
  intro query path h
  rcases h with h | h <;> simp [searchDecision, h]

/-- Claim C9 witness: a whitespace-only keyword aborts the search. -/
theorem empty_input_aborts_witness :
    pyStrip "   ".toList = []
    ∧ searchDecision "   ".toList "/sdk".toList = SearchAction.abortMissingInput :=
  ⟨by decide, empty_input_aborts _ _ (Or.inl (by decide))⟩

/-- Claim C8 counterexample: step 1 of the code is `strip` then split, not
the spec-claimed split-then-drop-trailing-empty-line; on the raw output
`" a.c:1:foo"` the code removes the leading space before per-line
processing (the parsed path is `a.c`, not ` a.c`), so the two step-1
results differ. -/
theorem step1_strips_more_cex :
    linesOf " a.c:1:foo".toList ≠ specStep1Lines " a.c:1:foo".toList
    ∧ parseRG " a.c:1:foo".toList "/r".toList
        = some [("/r/a.c".toList, [(1, "foo".toList)])] :=
  ⟨by decide, by decide⟩

/-- Claim C8 amended: step 1 splits `strip(raw)` on line breaks, so the
trailing empty line from a final newline is indeed discarded, but leading
and trailing whitespace (including leading blank lines and leading
whitespace of the first line) is also removed before per-line
processing. -/
theorem step1_strip_amended :
    ∀ (raw : List Char) (c : Char), isPySpace c = true →
      linesOf (raw ++ ['\n']) = linesOf raw ∧ linesOf (c :: raw) = linesOf raw :=
  fun raw c hc => ⟨linesOf_append_newline raw, linesOf_cons_space c raw hc⟩

/-- Claim C8 amended witness: a final newline and a leading blank are both
erased by step 1 on a concrete raw output. -/
theorem step1_strip_amended_witness :
    isPySpace ' ' = true
    ∧ (linesOf ("a.c:1:x".toList ++ ['\n']) = linesOf "a.c:1:x".toList
       ∧ linesOf (' ' :: "a.c:1:x".toList) = linesOf "a.c:1:x".toList) :=
  ⟨by decide, step1_strip_amended "a.c:1:x".toList ' ' (by decide)⟩

/-- Claim C7: the parser is a pure function of (raw output, root) by
construction, and on any raw output in which every kept line (one that
splits into exactly 3 colon-delimited parts) has a line-number field
accepted by `int`, it never fails. -/
theorem parse_total_on_wellformed :
    ∀ raw root : List Char,
      (∀ line ∈ linesOf raw, (pySplit2 line).length = 3 →
        (pyInt? ((pySplit2 line).getD 1 [])).isSome = true) →
      (parseRG raw root).isSome = true := by
  intro raw root h
  unfold parseRG
  apply parseLines_isSome
  intro line hl fp ln code hsp
  have h2 := h line hl (by rw [hsp]; rfl)
  rw [hsp] at h2
  exact h2

/-- Claim C7 witness: a well-formed two-line raw output parses
successfully. -/
theorem parse_total_on_wellformed_witness :
    (∀ line ∈ linesOf "a.c:3:foo\nb.c:5:bar".toList, (pySplit2 line).length = 3 →
      (pyInt? ((pySplit2 line).getD 1 [])).isSome = true)
    ∧ (parseRG "a.c:3:foo\nb.c:5:bar".toList "/sdk".toList).isSome = true :=
  ⟨by decide, parse_total_on_wellformed _ _ (by decide)⟩

/-- Claim C5: a kept raw-output line `filePathPart:lineNumberPart:remainder`
contributes its MatchLine exactly under the key `join(root, filePathPart)`
— the path is always root-joined, whatever relative path the search tool
reported. -/
theorem match_grouped_under_joined_path :
    ∀ (root : List Char) (files : Files) (fp ln code : List Char) (n : Int),
      (¬ ':' ∈ fp) → (¬ ':' ∈ ln) → pyInt? ln = some n →
      processLine root files (fp ++ ':' :: (ln ++ ':' :: code))
        = some (addMatch files (posixJoin root fp) (n, pyStrip code)) :=
  fun root files fp ln code n hfp hln hn =>
    processLine_eq root files fp ln code n hfp hln hn

/-- Claim C5 witness: the spec scenario — `src/eeprom.c:42:…` under root
`/sdk` is recorded under `/sdk/src/eeprom.c`. -/
theorem match_grouped_under_joined_path_witness :
    (¬ ':' ∈ "src/eeprom.c".toList)
    ∧ pyInt? "42".toList = some 42
    ∧ processLine "/sdk".toList []
        ("src/eeprom.c".toList ++ ':' :: ("42".toList ++ ':' :: "void f(void)".toList))
      = some (addMatch [] (posixJoin "/sdk".toList "src/eeprom.c".toList)
          (42, pyStrip "void f(void)".toList))
    ∧ posixJoin "/sdk".toList "src/eeprom.c".toList = "/sdk/src/eeprom.c".toList :=
  ⟨by decide, by decide,
   match_grouped_under_joined_path "/sdk".toList [] _ _ _ 42
      (by decide) (by decide) (by decide),
   by decide⟩

/-- Claim C6: a line containing at least two colons (written as
`fp ++ ":" ++ ln ++ ":" ++ code` with the first two colons explicit) splits
into exactly the 3 parts `[fp, ln, code]`; the remainder `code` is never
split further even if it contains colons, and the recorded MatchLine text
is the remainder trimmed of surrounding whitespace. -/
theorem line_three_way_split :
    ∀ fp ln code : List Char, (¬ ':' ∈ fp) → (¬ ':' ∈ ln) →
      pySplit2 (fp ++ ':' :: (ln ++ ':' :: code)) = [fp, ln, code]
      ∧ ∀ (root : List Char) (n : Int), pyInt? ln = some n →
          processLine root [] (fp ++ ':' :: (ln ++ ':' :: code))
            = some [(posixJoin root fp, [(n, pyStrip code)])] := by
  intro fp ln code hfp hln
  refine ⟨pySplit2_eq fp ln code hfp hln, ?_⟩
  intro root n hn
  rw [processLine_eq root [] fp ln code n hfp hln hn]
  rfl

/-- Claim C6 witness: a remainder containing `::` stays in one piece and is
trimmed. -/
theorem line_three_way_split_witness :
    (¬ ':' ∈ "a.c".toList)
    ∧ pyInt? "7".toList = some 7
    ∧ pySplit2 ("a.c".toList ++ ':' :: ("7".toList ++ ':' :: " x::y ".toList))
      = ["a.c".toList, "7".toList, " x::y ".toList]
    ∧ processLine "/r".toList []
        ("a.c".toList ++ ':' :: ("7".toList ++ ':' :: " x::y ".toList))
      = some [(posixJoin "/r".toList "a.c".toList, [(7, pyStrip " x::y ".toList)])]
    ∧ pyStrip " x::y ".toList = "x::y".toList := by
  have h := line_three_way_split "a.c".toList "7".toList " x::y ".toList
    (by decide) (by decide)
  exact ⟨by decide, by decide, h.1, h.2 "/r".toList 7 (by decide), by decide⟩

lemma open_file_location_eq (p r : List Char) (hp : ¬ ':' ∈ p) :
    open_file_location (p ++ ':' :: r) = some (OpenCmd.withLine p r) := by
  unfold open_file_location
  rw [if_pos (List.mem_append_right _ (List.mem_cons_self _ _)), splitCh1_eq p r hp]

/-- Claim C10: `open_file_location` splits the label at its first colon
into (filepath, lineno) and invokes the editor with them; a label
`path ++ ":" ++ line` recovers the original pair exactly when the path
itself has no colon (otherwise it is truncated at the path's first colon);
a label with no colon is passed whole, and the tuple unpacking never
fails. -/
theorem open_location_split :
    ∀ text path line : List Char,
      (open_file_location (path ++ ':' :: line) = some (OpenCmd.withLine path line)
        ↔ ¬ ':' ∈ path)
      ∧ ((¬ ':' ∈ text) → open_file_location text = some (OpenCmd.whole text))
      ∧ (open_file_location text).isSome = true := by
  intro text path line
  refine ⟨⟨?_, fun hp => open_file_location_eq path line hp⟩, ?_, ?_⟩
  · intro heq
    by_cases hc : ':' ∈ path
    · exfalso
      obtain ⟨p, r, hpr, hp⟩ := mem_split_first hc
      have hshape : (p ++ ':' :: r) ++ ':' :: line = p ++ ':' :: (r ++ ':' :: line) := by
        simp [List.append_assoc]
      rw [hpr, hshape, open_file_location_eq p _ hp] at heq
      simp only [Option.some.injEq, OpenCmd.withLine.injEq] at heq
      have hlen := congrArg List.length heq.1
      simp [List.length_append] at hlen
    · exact hc
  · intro h
    unfold open_file_location
    rw [if_neg h]
  · by_cases hmem : ':' ∈ text
    · obtain ⟨p, r, hpr, hp⟩ := mem_split_first hmem
      rw [hpr, open_file_location_eq p r hp]
      rfl
    · unfold open_file_location
      rw [if_neg hmem]
      rfl

/-- Claim C10 witness: a colon-free path round-trips through the label,
and a colon-free label is passed to the editor whole. -/
theorem open_location_split_witness :
    (¬ ':' ∈ "/r/a.c".toList)
    ∧ open_file_location ("/r/a.c".toList ++ ':' :: "3".toList)
      = some (OpenCmd.withLine "/r/a.c".toList "3".toList)
    ∧ open_file_location "noColon".toList = some (OpenCmd.whole "noColon".toList) :=
  ⟨by decide,
   (open_location_split "noColon".toList "/r/a.c".toList "3".toList).1.mpr (by decide),
   (open_location_split "noColon".toList "/r/a.c".toList "3".toList).2.1 (by decide)⟩

/-- Claim C1: grouping preserves first-seen file order and per-file raw
order — `addMatch` keeps the existing key order, adds a new key at the
end, appends the new match at the end of exactly its own key's list — and
on the three-line raw output `"a.c:3:foo\nb.c:5:bar\na.c:9:baz"` (any
root) the file order is [a.c, b.c] with a.c's lines [(3,foo),(9,baz)]. -/
theorem parse_group_order :
    (∀ (files : Files) (fp : List Char) (e : Int × List Char),
      (addMatch files fp e).map Prod.fst
        = (if fp ∈ files.map Prod.fst then files.map Prod.fst
           else files.map Prod.fst ++ [fp])
      ∧ linesFor fp (addMatch files fp e) = linesFor fp files ++ [e]
      ∧ ∀ k, k ≠ fp → linesFor k (addMatch files fp e) = linesFor k files)
    ∧ ∀ root : List Char,
        parseRG "a.c:3:foo\nb.c:5:bar\na.c:9:baz".toList root
          = some [(posixJoin root "a.c".toList, [(3, "foo".toList), (9, "baz".toList)]),
                  (posixJoin root "b.c".toList, [(5, "bar".toList)])] := by
  constructor
  · intro files fp e
    exact ⟨addMatch_keys fp e files, linesFor_addMatch_self fp e files,
      fun k hk => linesFor_addMatch_other fp k e hk files⟩
  · intro root
    have hl : linesOf "a.c:3:foo\nb.c:5:bar\na.c:9:baz".toList
        = ["a.c:3:foo".toList, "b.c:5:bar".toList, "a.c:9:baz".toList] := by decide
    have e1 : "a.c:3:foo".toList
        = "a.c".toList ++ ':' :: ("3".toList ++ ':' :: "foo".toList) := by decide
    have e2 : "b.c:5:bar".toList
        = "b.c".toList ++ ':' :: ("5".toList ++ ':' :: "bar".toList) := by decide
    have e3 : "a.c:9:baz".toList
        = "a.c".toList ++ ':' :: ("9".toList ++ ':' :: "baz".toList) := by decide
    have hne : posixJoin root "a.c".toList ≠ posixJoin root "b.c".toList := by
      intro h
      have h2 := (posixJoin_inj root "a.c".toList "b.c".toList
        (by decide) (by decide)).mp h
      exact absurd h2 (by decide)
    have h1 : processLine root [] "a.c:3:foo".toList
        = some [(posixJoin root "a.c".toList, [((3 : Int), "foo".toList)])] := by
      rw [e1, processLine_eq root [] _ _ _ 3 (by decide) (by decide) (by decide)]
      have hfoo : pyStrip "foo".toList = "foo".toList := by decide
      rw [hfoo]
      rfl
    have h2 : processLine root [(posixJoin root "a.c".toList, [((3 : Int), "foo".toList)])]
        "b.c:5:bar".toList
        = some [(posixJoin root "a.c".toList, [((3 : Int), "foo".toList)]),
                (posixJoin root "b.c".toList, [((5 : Int), "bar".toList)])] := by
      rw [e2, processLine_eq root _ _ _ _ 5 (by decide) (by decide) (by decide)]
      have hbar : pyStrip "bar".toList = "bar".toList := by decide
      rw [hbar]
      simp only [addMatch]
      rw [if_neg hne]
    have h3 : processLine root
        [(posixJoin root "a.c".toList, [((3 : Int), "foo".toList)]),
         (posixJoin root "b.c".toList, [((5 : Int), "bar".toList)])]
        "a.c:9:baz".toList
        = some [(posixJoin root "a.c".toList,
                  [((3 : Int), "foo".toList), ((9 : Int), "baz".toList)]),
                (posixJoin root "b.c".toList, [((5 : Int), "bar".toList)])] := by
      rw [e3, processLine_eq root _ _ _ _ 9 (by decide) (by decide) (by decide)]
      have hbaz : pyStrip "baz".toList = "baz".toList := by decide
      rw [hbaz]
      simp [addMatch]
    unfold parseRG
    rw [hl, parseLines_cons_some root _ _ _ _ h1, parseLines_cons_some root _ _ _ _ h2,
      parseLines_cons_some root _ _ _ _ h3]
    rfl

/-- Claim C1 witness: the order facts at concrete inputs (appending a
match for a new key does not disturb an existing key's lines) and the
three-line example at root `/sdk`. -/
theorem parse_group_order_witness :
    ("a".toList ≠ "b".toList)
    ∧ linesFor "a".toList
        (addMatch [("a".toList, [((1 : Int), "x".toList)])] "b".toList
          ((2 : Int), "y".toList))
      = linesFor "a".toList [("a".toList, [((1 : Int), "x".toList)])]
    ∧ parseRG "a.c:3:foo\nb.c:5:bar\na.c:9:baz".toList "/sdk".toList
        = some [(posixJoin "/sdk".toList "a.c".toList,
                  [(3, "foo".toList), (9, "baz".toList)]),
                (posixJoin "/sdk".toList "b.c".toList, [(5, "bar".toList)])] :=
  ⟨by decide,
   (parse_group_order.1 [("a".toList, [((1 : Int), "x".toList)])] "b".toList
      ((2 : Int), "y".toList)).2.2 "a".toList (by decide),
   parse_group_order.2 "/sdk".toList⟩

/-- Claim C3: for a non-empty keyword the visible paint segments
concatenate back to the original text, every keyword-marked segment is the
keyword, every unmarked segment is non-empty and contains no occurrence of
the keyword (so each left-to-right non-overlapping occurrence is isolated
in its own marked segment), and `split("the cat sat", "at")` gives exactly
the four segments with the 2nd and 4th marked. -/
theorem highlight_split_spec :
    ∀ text kw : List Char, kw ≠ [] →
      (joinSep [] ((visibleSegs text kw).map Prod.fst) = text
      ∧ (∀ p ∈ visibleSegs text kw, p.2 = true → p.1 = kw)
      ∧ (∀ p ∈ visibleSegs text kw, p.2 = false →
          p.1 ≠ [] ∧ ∀ u w, p.1 ≠ u ++ (kw ++ w)))
      ∧ visibleSegs "the cat sat".toList "at".toList
        = [("the c".toList, false), ("at".toList, true),
           (" s".toList, false), ("at".toList, true)] := by
  intro text kw hkw
  constructor
  · refine ⟨?_, ?_, ?_⟩
    · unfold visibleSegs
      rw [joinSep_filter]
      unfold paintSegs
      by_cases hc : kw = [] ∨ containsSub kw text = false
      · rw [if_pos hc]
        simp [joinSep]
      · rw [if_neg hc, interleaveKw_join]
        unfold pySplitSep
        have hj := splitGo_join kw hkw text.length text [] le_rfl
        simpa using hj
    · intro p hp ht
      have hp2 := List.mem_filter.mp hp
      rw [paintSegs] at hp2
      by_cases hc : kw = [] ∨ containsSub kw text = false
      · rw [if_pos hc] at hp2
        have hp3 : p = (text, false) := by simpa using hp2.1
        rw [hp3] at ht
        cases ht
      · rw [if_neg hc] at hp2
        exact interleaveKw_true kw _ p hp2.1 ht
    · intro p hp hf
      have hp2 := List.mem_filter.mp hp
      have hne : p.1 ≠ [] := by
        intro hnil
        have h3 := hp2.2
        rw [hnil] at h3
        exact absurd h3 (by decide)
      refine ⟨hne, ?_⟩
      have hp3 := hp2.1
      rw [paintSegs] at hp3
      by_cases hc : kw = [] ∨ containsSub kw text = false
      · rw [if_pos hc] at hp3
        have hp4 : p = (text, false) := by simpa using hp3
        rcases hc with hc | hc
        · exact absurd hc hkw
        · intro u w heq
          have hsub : containsSub kw text = true :=
            (containsSub_iff kw text).mpr ⟨u, w, by rw [← heq, hp4]⟩
          rw [hc] at hsub
          cases hsub
      · rw [if_neg hc] at hp3
        have hmem := interleaveKw_false kw _ p hp3 hf
        have hinv : ∀ u v, ([] : List Char).reverse = u ++ v → v ≠ [] →
            kw.isPrefixOf (v ++ text) = false := by
          intro u v huv hv
          exact absurd (List.append_eq_nil.mp huv.symm).2 hv
        exact splitGo_no_occ kw hkw text.length text [] le_rfl hinv p.1 hmem
  · decide

/-- Claim C3 witness: at the concrete text and keyword, the keyword is
non-empty and the visible segments concatenate back to the text. -/
theorem highlight_split_spec_witness :
    ("at".toList ≠ [])
    ∧ joinSep [] ((visibleSegs "the cat sat".toList "at".toList).map Prod.fst)
      = "the cat sat".toList :=
  ⟨by decide,
   (highlight_split_spec "the cat sat".toList "at".toList (by decide)).1.1⟩

end CodeSearch
